import Mathlib

/-!
Verification of the iptv-proxy repository (src/server.js, src/app.js).

Text is modelled as `List Char` (`Str`).  JavaScript strings coming out of
`String.prototype.trim`, `split('\n')`, `match`, `includes`, `startsWith`,
`endsWith` are translated to executable functions over `Str` below, each with
the source construct it embeds noted next to it.  Whitespace is modelled by
`Char.isWhitespace` (space, tab, CR, LF), the ASCII core of the JS class.
-/

/-- JavaScript strings as lists of characters. -/
abbrev Str := List Char

/-- Drop leading whitespace (front half of `String.prototype.trim`). -/
def trimF (l : Str) : Str := l.dropWhile Char.isWhitespace

/-- Drop trailing whitespace (back half of `String.prototype.trim`). -/
def trimR (l : Str) : Str := (l.reverse.dropWhile Char.isWhitespace).reverse

/-- JS `String.prototype.trim`: drop whitespace at both ends. -/
def trimL (l : Str) : Str := trimR (trimF l)

/-- JS `String.prototype.includes(pat)`: some position where `pat` starts. -/
def hasSubstr (pat : Str) : Str → Bool
  | [] => pat.isPrefixOf []
  | l@(_ :: rest) => pat.isPrefixOf l || hasSubstr pat rest

/-- JS `String.prototype.toLowerCase` (ASCII case mapping). -/
def lowerS (s : Str) : Str := s.map Char.toLower

/-! ### Proxy gateway (src/server.js) -/

/-- Embeds `isAllowedDomain` (src/server.js lines 255-263): the hostname is
allowed when it equals an allowed domain or ends with `'.' + domain`. -/
def isAllowedDomain (allowedDomains : List Str) (hostname : Str) : Bool :=
  allowedDomains.any (fun domain =>
    hostname == domain || ('.' :: domain).isSuffixOf hostname)

/-- Outcome of the `/api/proxy` handler: the HTTP response class, with
`forward` carrying the upstream URL that gets fetched. -/
inductive ProxyOutcome where
  | missingUrl    -- 400 "Missing ?url= parameter"
  | invalidUrl    -- 400 "Invalid URL" (new URL threw)
  | forbidden     -- 403 "Domain not allowed"
  | forward (target : Str)  -- upstream fetch is issued
  deriving DecidableEq

/-- True exactly when the outcome issues an upstream fetch. -/
def ProxyOutcome.fetchesUpstream : ProxyOutcome → Bool
  | .forward _ => true
  | _ => false

/-- Embeds the `/api/proxy` handler (src/server.js lines 99-122).
`target` is `parsedUrl.query.url` (`none` = absent); `hostOf` models the
platform `new URL(u).hostname` (`none` = the constructor throws). -/
def proxyHandler (allowedDomains : List Str) (target : Option Str)
    (hostOf : Str → Option Str) : ProxyOutcome :=
  match target with
  | none => .missingUrl
  | some t =>
    if t = [] then .missingUrl  -- !targetUrl is also true for ""
    else
      match hostOf t with
      | none => .invalidUrl
      | some h =>
        if isAllowedDomain allowedDomains h then .forward t else .forbidden

/-! ### Static file server (src/server.js lines 170-197) -/

/-- Resolve `.` and `..` segments of an absolute path (the normalization
step inside Node's `path.join`): `..` pops, `.` and empty segments vanish. -/
def normSegs (segs : List Str) : List Str :=
  segs.foldl
    (fun acc s =>
      if s = [] then acc
      else if s = ['.'] then acc
      else if s = ['.', '.'] then acc.dropLast
      else acc ++ [s]) []

/-- Node `path.join(a, b)` for an absolute `a`: concatenate with `/` and
normalize. -/
def pathJoin (a b : Str) : Str :=
  '/' :: (List.intercalate ['/'] (normSegs ((a ++ '/' :: b).splitOn '/')))

/-- Outcome of the static file handler before any filesystem access. -/
inductive StaticOutcome where
  | forbidden          -- 403 Forbidden
  | readFile (fp : Str)  -- fs.readFile(fp) is attempted
  deriving DecidableEq

/-- Embeds the static file handler (src/server.js lines 170-183): join the
root with the request pathname, then serve unless the joined path fails the
`filePath.startsWith(__dirname)` test. -/
def staticHandler (root pathname : Str) : StaticOutcome :=
  let fp0 := if pathname = ['/'] then "/index.html".toList else pathname
  let fp := pathJoin root fp0
  if root.isPrefixOf fp then .readFile fp else .forbidden

/-- The resolved path `fp` stays inside the directory `root` when it is the
root itself or sits strictly below it (formalizing "does not escape the
application's root directory"). -/
def insideRoot (root fp : Str) : Prop :=
  fp = root ∨ (root ++ ['/']).isPrefixOf fp = true

/-! ### M3U playlist parser (src/app.js lines 164-200) -/

/-- A character the regex `.` can match (JS `.` excludes line terminators). -/
def dotChar (c : Char) : Bool := !(c = '\n' || c = '\r')

/-- Embeds `line.match(/,(.+)$/)`: the leftmost position holding a comma
whose (non-empty) tail consists of `.`-matchable characters yields that
tail as the capture; otherwise the scan continues to the right. -/
def nameCapture : Str → Option Str
  | [] => none
  | c :: rest =>
    if c = ',' ∧ rest ≠ [] ∧ rest.all dotChar then some rest
    else nameCapture rest

/-- Remainder of `l` after the leftmost occurrence of `pat` (none when
`pat` does not occur). -/
def afterFirst (pat : Str) : Str → Option Str
  | [] => if pat = [] then some [] else none
  | c :: rest =>
    if pat.isPrefixOf (c :: rest) then some ((c :: rest).drop pat.length)
    else afterFirst pat rest

/-- Capture of `[^"]*` up to the next quote, if a closing quote exists. -/
def takeUntilQuote (l : Str) : Option Str :=
  if l.any (fun c => c = '"') then some (l.takeWhile (fun c => c ≠ '"')) else none

/-- Embeds `line.match(/attr="([^"]*)"/)` for a literal `attr="` pattern:
text between the leftmost `attr="` and the next quote.  (If the remainder
after the leftmost occurrence held no quote, no later occurrence could
exist either, since the pattern itself ends in a quote.) -/
def attrCapture (pat : Str) (line : Str) : Option Str :=
  (afterFirst pat line).bind takeUntilQuote

/-- Metadata extracted from an `#EXTINF:` line. -/
structure M3UMeta where
  logo : Option Str
  group : Str
  name : Str
  deriving DecidableEq

/-- Embeds the `#EXTINF:` branch of `parseM3U` (src/app.js lines 171-181):
tvg-logo / group-title / display-name extraction with the source defaults. -/
def mkMeta (line : Str) : M3UMeta :=
  { logo := attrCapture "tvg-logo=\"".toList line
  , group := (attrCapture "group-title=\"".toList line).getD "Uncategorized".toList
  , name := ((nameCapture line).map trimL).getD "Unknown Channel".toList }

/-- One EPG programme entry (start/stop are `new Date(...)` values: `none`
models an Invalid Date, `some t` a time value in minutes). -/
structure Program where
  start : Option Int
  stop : Option Int
  title : Str
  desc : Str
  deriving DecidableEq

/-- One playlist channel record.  `epg` is the program list attached later
by the correlator (`none` = field absent). -/
structure Channel where
  logo : Option Str
  group : Str
  name : Str
  url : Str
  epg : Option (List Program)
  deriving DecidableEq

/-- A trimmed line taken as a stream URL by `parseM3U`: non-empty and not
starting with `#`. -/
def streamLine (line : Str) : Bool := line ≠ [] && !(['#'].isPrefixOf line)

/-- One iteration of the `lines.forEach` body of `parseM3U` (src/app.js
lines 169-188).  The state is the pending `currentChannel` metadata: `none`
before any `#EXTINF:` line (a URL seen then has no name, so nothing is
pushed and the later `#EXTINF:` reset erases the stray url field). -/
def m3uStep (st : Option M3UMeta) (raw : Str) : Option M3UMeta × List Channel :=
  let line := trimL raw
  if "#EXTINF:".toList.isPrefixOf line then (some (mkMeta line), [])
  else if streamLine line then
    match st with
    | some m =>
      (st, if m.name ≠ [] ∧ line ≠ [] then [⟨m.logo, m.group, m.name, line, none⟩] else [])
    | none => (none, [])
  else (st, [])

/-- Channels emitted by running `parseM3U`'s loop from state `st`. -/
def parseLines (st : Option M3UMeta) : List Str → List Channel
  | [] => []
  | l :: ls =>
    let r := m3uStep st l
    r.2 ++ parseLines r.1 ls

/-- State of the pending metadata after running the loop over `ls`. -/
def m3uState (st : Option M3UMeta) : List Str → Option M3UMeta
  | [] => st
  | l :: ls => m3uState (m3uStep st l).1 ls

/-- Embeds `parseM3U` (src/app.js lines 164-188): split on newlines and run
the line loop with no pending metadata. -/
def parseM3U (content : Str) : List Channel :=
  parseLines none (content.splitOn '\n')

/-! ### EPG parser (src/app.js lines 219-271)

The XML document itself is parsed by the browser's `DOMParser`; the
repository code consumes the resulting `programme` element list.  A
`ProgElem` is such an element: `getAttribute` results (`none` = attribute
absent) and the text of the `title` / `desc` children (`none` = no such
child element). -/

structure ProgElem where
  channel : Option Str
  start : Option Str
  stop : Option Str
  title : Option Str
  desc : Option Str
  deriving DecidableEq

/-- JS truthiness of a string-or-null: false for `null` and for `""`. -/
def strTruthy : Option Str → Bool
  | none => false
  | some s => s ≠ []

/-- JS `parseInt(s)` base 10: skip whitespace, optional sign, leading
digits; `none` models NaN (no digits). -/
def parseIntOpt (s : Str) : Option Int :=
  let digitsVal : Str → Option Int := fun l =>
    let ds := l.takeWhile Char.isDigit
    if ds = [] then none
    else some (ds.foldl (fun a c => a * 10 + ((c.toNat : Int) - 48)) 0)
  match s.dropWhile Char.isWhitespace with
  | '-' :: r => (digitsVal r).map (fun n => -n)
  | '+' :: r => digitsVal r
  | r => digitsVal r

/-- JS `s.substring(a, b)`. -/
def substr (l : Str) (a b : Nat) : Str := (l.drop a).take (b - a)

/-- Minutes since the epoch of `new Date(y, m, d, h, mi)` (month 0-based,
out-of-range fields normalized by calendar arithmetic, the 0..99 year
mapped to 1900..1999 as JS does; the host timezone is taken as UTC). -/
def jsTime (y m d h mi : Int) : Int :=
  let yy := if 0 ≤ y ∧ y ≤ 99 then y + 1900 else y
  let ny := yy + Int.fdiv m 12
  let m1 := Int.emod m 12 + 1
  let yEff := ny - (if m1 ≤ 2 then 1 else 0)
  let era := Int.fdiv yEff 400
  let yoe := yEff - era * 400
  let doy := Int.fdiv (153 * (m1 + (if 2 < m1 then (-3) else 9)) + 2) 5
  let doe := yoe * 365 + Int.fdiv yoe 4 - Int.fdiv yoe 100 + doy
  let days := era * 146097 + doe - 719468 + (d - 1)
  days * 1440 + h * 60 + mi

/-- Embeds the inner `parseDate` of `parseEPG` (src/app.js lines 228-236):
`none` is the `null` it returns for short input; `some none` is an Invalid
Date (some component was NaN, the object itself still truthy). -/
def parseDateM (dateStr : Str) : Option (Option Int) :=
  if dateStr = [] ∨ dateStr.length < 14 then none
  else
    some (do
      let y ← parseIntOpt (substr dateStr 0 4)
      let m ← parseIntOpt (substr dateStr 4 6)
      let d ← parseIntOpt (substr dateStr 6 8)
      let h ← parseIntOpt (substr dateStr 8 10)
      let mi ← parseIntOpt (substr dateStr 10 12)
      pure (jsTime y (m - 1) d h mi))

/-- The two `return`-guards of the programme loop (src/app.js lines
243-248): channel/start/stop truthy, and both `parseDate` results non-null
(an Invalid Date still passes, being a truthy object). -/
def progValid (e : ProgElem) : Bool :=
  strTruthy e.channel && strTruthy e.start && strTruthy e.stop &&
    (parseDateM (e.start.getD [])).isSome && (parseDateM (e.stop.getD [])).isSome

/-- The Program record pushed for a programme element that passed the
guards (src/app.js lines 250-264). -/
def mkProg (e : ProgElem) : Program :=
  { start := (parseDateM (e.start.getD [])).getD none
  , stop := (parseDateM (e.stop.getD [])).getD none
  , title := e.title.getD "Bez tytułu".toList
  , desc := e.desc.getD [] }

/-- The EPG index `appState.epgData`: channel-id keyed, insertion order of
keys preserved (the order `Object.keys` yields). -/
abbrev EPGIndex := List (Str × List Program)

/-- Property lookup `epgData[k]` (values are always arrays, hence truthy
whenever the key is present). -/
def lookupIdx (idx : EPGIndex) (k : Str) : Option (List Program) :=
  (idx.find? (fun kv => kv.1 == k)).map (fun kv => kv.2)

/-- Embeds `if (!epgData[id]) epgData[id] = []; epgData[id].push(p)`
(src/app.js lines 255-264). -/
def addProg (idx : EPGIndex) (k : Str) (p : Program) : EPGIndex :=
  if (lookupIdx idx k).isSome then
    idx.map (fun kv => if kv.1 == k then (kv.1, kv.2 ++ [p]) else kv)
  else idx ++ [(k, [p])]

/-- One iteration of the `programmes.forEach` loop of `parseEPG`. -/
def buildStep (idx : EPGIndex) (e : ProgElem) : EPGIndex :=
  if progValid e then addProg idx (e.channel.getD []) (mkProg e) else idx

/-- The `programmes.forEach` loop of `parseEPG` building the fresh index. -/
def buildIndex (elems : List ProgElem) : EPGIndex :=
  elems.foldl buildStep []

/-- Where an exception can strike `parseEPG` relative to its state writes:
`earlyThrow` models a throw in the `DOMParser`/`querySelectorAll` phase,
before the `appState.epgData = {}` reset on line 226; `run elems
laterThrow` models obtaining the programme elements (the reset then runs
and the index is rebuilt), with `laterThrow` an exception in the remaining
in-`try` steps (such as the DOM work of `mapEPGToChannels`, line 267),
swallowed by the `catch` after the rebuild already happened. -/
inductive EPGRun where
  | earlyThrow
  | run (elems : List ProgElem) (laterThrow : Bool)

/-- Embeds `parseEPG` (src/app.js lines 219-271) as a transformer of the
index state `appState.epgData`. -/
def parseEPG (prior : EPGIndex) : EPGRun → EPGIndex
  | .earlyThrow => prior
  | .run elems _ => buildIndex elems

/-! ### Correlator and program queries (src/app.js lines 273-316) -/

/-- The program list `mapEPGToChannels` would attach to a channel named
`nm` (src/app.js lines 277-291): exact key lookup first, then the first
key equal up to case, else nothing. -/
def epgForName (idx : EPGIndex) (nm : Str) : Option (List Program) :=
  match lookupIdx idx nm with
  | some ps => some ps
  | none => (idx.find? (fun kv => lowerS kv.1 == lowerS nm)).map (fun kv => kv.2)

/-- Embeds `mapEPGToChannels` (src/app.js lines 273-292): each channel gets
`epg` set on a match and is left untouched otherwise. -/
def mapEPGToChannels (idx : EPGIndex) (chans : List Channel) : List Channel :=
  chans.map (fun ch =>
    match epgForName idx ch.name with
    | some ps => { ch with epg := some ps }
    | none => ch)

/-- The predicate of `getCurrentProgram` (src/app.js line 305):
`now >= p.start && now < p.stop`, false on Invalid Dates (NaN compares). -/
def progPred (now : Int) (p : Program) : Bool :=
  (match p.start with | some s => decide (s ≤ now) | none => false) &&
    (match p.stop with | some e => decide (now < e) | none => false)

/-- Embeds `getCurrentProgram` (src/app.js lines 302-306), with the clock
reading `new Date()` passed in as `now`. -/
def getCurrentProgram (ch : Channel) (now : Int) : Option Program :=
  match ch.epg with
  | none => none
  | some l => l.find? (progPred now)

/-! ### View classifier (src/app.js lines 326-347) -/

/-- The `isMovie` heuristic of `getChannelsForView` (src/app.js lines
333-335): note the name is only tested for `movie` and `vod`. -/
def isMovieCh (ch : Channel) : Bool :=
  let g := lowerS ch.group
  let n := lowerS ch.name
  hasSubstr "movie".toList g || hasSubstr "film".toList g ||
    hasSubstr "vod".toList g || hasSubstr "cinema".toList g ||
    hasSubstr "movie".toList n || hasSubstr "vod".toList n

/-- The `isSeries` heuristic (src/app.js lines 337-339). -/
def isSeriesCh (ch : Channel) : Bool :=
  let g := lowerS ch.group
  let n := lowerS ch.name
  hasSubstr "series".toList g || hasSubstr "serial".toList g ||
    hasSubstr "season".toList g || hasSubstr "episode".toList g ||
    hasSubstr "s0".toList n || hasSubstr "e0".toList n

/-- Embeds `getChannelsForView` (src/app.js lines 326-347). -/
def getChannelsForView (view : Str) (chans : List Channel) : List Channel :=
  if chans = [] then []
  else
    chans.filter (fun ch =>
      if view = "movies".toList then isMovieCh ch
      else if view = "series".toList then isSeriesCh ch
      else if view = "live-tv".toList then !isMovieCh ch && !isSeriesCh ch
      else true)

/-- Modelled from the spec (section 4.4), for comparison with the code:
"`isMovie` := group or name contains any of {`movie`, `film`, `vod`,
`cinema`}".  The code's `isMovieCh` omits `film` and `cinema` on names. -/
def specIsMovie (ch : Channel) : Bool :=
  let g := lowerS ch.group
  let n := lowerS ch.name
  hasSubstr "movie".toList g || hasSubstr "film".toList g ||
    hasSubstr "vod".toList g || hasSubstr "cinema".toList g ||
    hasSubstr "movie".toList n || hasSubstr "film".toList n ||
    hasSubstr "vod".toList n || hasSubstr "cinema".toList n

/-! ### Helper lemmas -/

theorem isPrefixOf_eq_true_iff : ∀ (p l : Str), p.isPrefixOf l = true ↔ ∃ t, l = p ++ t := by
  intro p
  induction p with
  | nil => intro l; simp [List.isPrefixOf]
  | cons a as ih =>
    intro l
    cases l with
    | nil => simp [List.isPrefixOf]
    | cons b bs =>
      simp only [List.isPrefixOf, Bool.and_eq_true, beq_iff_eq, ih bs]
      constructor
      · rintro ⟨hab, t, ht⟩; exact ⟨t, by simp [hab, ht]⟩
      · rintro ⟨t, ht⟩
        rw [List.cons_append] at ht
        obtain ⟨h1, h2⟩ := List.cons.inj ht
        exact ⟨h1.symm ▸ rfl, t, h2⟩

theorem isSuffixOf_eq_true_iff (p l : Str) : p.isSuffixOf l = true ↔ ∃ t, l = t ++ p := by
  show p.reverse.isPrefixOf l.reverse = true ↔ _
  rw [isPrefixOf_eq_true_iff]
  constructor
  · rintro ⟨t, ht⟩
    refine ⟨t.reverse, ?_⟩
    have := congrArg List.reverse ht
    simpa using this
  · rintro ⟨t, rfl⟩
    exact ⟨t.reverse, by simp⟩

theorem isAllowedDomain_iff (allowedDomains : List Str) (h : Str) :
    isAllowedDomain allowedDomains h = true ↔
      ∃ d ∈ allowedDomains, h = d ∨ ∃ pre : Str, h = pre ++ '.' :: d := by
  unfold isAllowedDomain
  rw [List.any_eq_true]
  constructor
  · rintro ⟨d, hd, hcase⟩
    rw [Bool.or_eq_true, beq_iff_eq] at hcase
    refine ⟨d, hd, ?_⟩
    rcases hcase with h1 | h2
    · exact Or.inl h1
    · exact Or.inr ((isSuffixOf_eq_true_iff _ _).mp h2)
  · rintro ⟨d, hd, hcase⟩
    refine ⟨d, hd, ?_⟩
    rw [Bool.or_eq_true, beq_iff_eq]
    rcases hcase with h1 | h2
    · exact Or.inl h1
    · exact Or.inr ((isSuffixOf_eq_true_iff _ _).mpr h2)

/-! ### Claim theorems -/

/-- C1: for a `/api/proxy` request carrying a target URL whose hostname is
neither an entry of the allowed-domain set nor a subdomain of one (ending
with `'.' ++` the entry), the handler answers 403 and issues no upstream
fetch; when the hostname is an entry or such a subdomain, the check passes
and the request is forwarded upstream. -/
theorem c1_proxy_allowlist (allowedDomains : List Str) (t h : Str)
    (hostOf : Str → Option Str) (ht : t ≠ []) (hh : hostOf t = some h) :
    (¬ (∃ d ∈ allowedDomains, h = d ∨ ∃ pre : Str, h = pre ++ '.' :: d) →
      proxyHandler allowedDomains (some t) hostOf = .forbidden ∧
        (proxyHandler allowedDomains (some t) hostOf).fetchesUpstream = false) ∧
    ((∃ d ∈ allowedDomains, h = d ∨ ∃ pre : Str, h = pre ++ '.' :: d) →
      proxyHandler allowedDomains (some t) hostOf = .forward t) := by
  constructor
  · intro hn
    have hfalse : isAllowedDomain allowedDomains h = false := by
      rcases hb : isAllowedDomain allowedDomains h with _ | _
      · rfl
      · exact absurd ((isAllowedDomain_iff _ _).mp hb) hn
    constructor <;>
      simp [proxyHandler, ht, hh, hfalse, ProxyOutcome.fetchesUpstream]
  · intro hE
    have htrue : isAllowedDomain allowedDomains h = true :=
      (isAllowedDomain_iff _ _).mpr hE
    simp [proxyHandler, ht, hh, htrue]

/-- Closed instance of `c1_proxy_allowlist`: with allow-list
`{cdn.example.com}`, a target at `evil.com` is rejected with 403 and no
fetch, and a target at `sub.cdn.example.com` is forwarded. -/
theorem c1_proxy_allowlist_witness :
    (proxyHandler ["cdn.example.com".toList]
        (some "http://evil.com/a".toList)
        (fun _ => some "evil.com".toList) = .forbidden ∧
      (proxyHandler ["cdn.example.com".toList]
          (some "http://evil.com/a".toList)
          (fun _ => some "evil.com".toList)).fetchesUpstream = false) ∧
    proxyHandler ["cdn.example.com".toList]
        (some "http://sub.cdn.example.com/a".toList)
        (fun _ => some "sub.cdn.example.com".toList)
      = .forward "http://sub.cdn.example.com/a".toList := by
  constructor
  · exact (c1_proxy_allowlist ["cdn.example.com".toList]
      "http://evil.com/a".toList "evil.com".toList
      (fun _ => some "evil.com".toList) (by decide) rfl).1
      (by
        rintro ⟨d, hd, h1 | ⟨pre, hp⟩⟩
        · rw [List.mem_singleton] at hd
          subst hd
          exact absurd h1 (by decide)
        · rw [List.mem_singleton] at hd
          subst hd
          have := congrArg List.length hp
          simp at this)
  · exact (c1_proxy_allowlist ["cdn.example.com".toList]
      "http://sub.cdn.example.com/a".toList "sub.cdn.example.com".toList
      (fun _ => some "sub.cdn.example.com".toList) (by decide) rfl).2
      ⟨"cdn.example.com".toList, by simp,
        Or.inr ⟨"sub".toList, by decide⟩⟩

/-- C2: the static handler's `startsWith(__dirname)` test is a bare string
test: for root `/srv/app`, the request pathname `/../app2/secret.txt`
resolves to `/srv/app2/secret.txt`, which escapes the root directory, yet
the handler proceeds to read it instead of answering 403. -/
theorem c2_static_escape_served :
    staticHandler "/srv/app".toList "/../app2/secret.txt".toList
        = .readFile "/srv/app2/secret.txt".toList ∧
      ¬ insideRoot "/srv/app".toList "/srv/app2/secret.txt".toList := by
  constructor
  · decide
  · unfold insideRoot
    decide

theorem head?_dropWhile_false (p : α → Bool) :
    ∀ (l : List α) (c : α), (l.dropWhile p).head? = some c → p c = false := by
  intro l
  induction l with
  | nil => intro c h; simp at h
  | cons x xs ih =>
    intro c h
    rw [List.dropWhile_cons] at h
    cases hpx : p x with
    | true => rw [hpx] at h; simp at h; exact ih c h
    | false =>
      rw [hpx] at h
      simp at h
      rw [← h]
      exact hpx

theorem getLast?_mem' : ∀ (l : List α) (c : α), l.getLast? = some c → c ∈ l := by
  intro l
  induction l with
  | nil => intro c h; simp at h
  | cons x xs ih =>
    intro c h
    cases xs with
    | nil => simp at h; simp [h]
    | cons y ys =>
      rw [List.getLast?_cons_cons] at h
      exact List.mem_cons_of_mem x (ih c h)

theorem trimL_getLast_not_ws (raw : Str) (c : Char) :
    (trimL raw).getLast? = some c → c.isWhitespace = false := by
  intro h
  unfold trimL trimR at h
  rw [List.getLast?_reverse] at h
  exact head?_dropWhile_false _ _ _ h

theorem trimR_eq_nil_iff (l : Str) : trimR l = [] ↔ ∀ c ∈ l, c.isWhitespace = true := by
  unfold trimR
  rw [List.reverse_eq_nil_iff, List.dropWhile_eq_nil_iff]
  constructor
  · intro h c hc; exact h c (by simpa using hc)
  · intro h c hc; exact h c (by simpa using hc)

theorem trimL_eq_nil_iff (l : Str) : trimL l = [] ↔ ∀ c ∈ l, c.isWhitespace = true := by
  unfold trimL trimF
  rw [trimR_eq_nil_iff]
  constructor
  · intro h c hc
    by_cases hw : c.isWhitespace = true
    · exact hw
    · have hsplit := List.takeWhile_append_dropWhile Char.isWhitespace l
      rcases List.mem_append.mp (by rw [hsplit]; exact hc) with htk | hdr
      · exact List.mem_takeWhile_imp htk
      · exact h c hdr
  · intro h c hc
    have hsplit := List.takeWhile_append_dropWhile Char.isWhitespace l
    exact h c (by rw [← hsplit]; exact List.mem_append_right _ hc)

theorem nameCapture_some : ∀ (l cap : Str), nameCapture l = some cap →
    cap ≠ [] ∧ cap.getLast? = l.getLast? := by
  intro l
  induction l with
  | nil => intro cap h; simp [nameCapture] at h
  | cons c rest ih =>
    intro cap h
    rw [nameCapture] at h
    by_cases hc : c = ',' ∧ rest ≠ [] ∧ rest.all dotChar
    · rw [if_pos hc] at h
      obtain rfl : rest = cap := by simpa using h
      refine ⟨hc.2.1, ?_⟩
      rcases hr : rest with _ | ⟨y, ys⟩
      · exact absurd hr hc.2.1
      · rw [List.getLast?_cons_cons]
    · rw [if_neg hc] at h
      obtain ⟨h1, h2⟩ := ih cap h
      have hrest : rest ≠ [] := by
        intro hr
        rw [hr] at h
        simp [nameCapture] at h
      refine ⟨h1, ?_⟩
      rcases hr : rest with _ | ⟨y, ys⟩
      · exact absurd hr hrest
      · rw [List.getLast?_cons_cons, ← hr]
        exact h2

theorem mkMeta_name_ne (raw : Str) : (mkMeta (trimL raw)).name ≠ [] := by
  unfold mkMeta
  cases hnc : nameCapture (trimL raw) with
  | none => simp
  | some cap =>
    simp only [Option.map_some', Option.getD_some]
    obtain ⟨hne, hlast⟩ := nameCapture_some _ _ hnc
    cases hcl : cap.getLast? with
    | none => exact absurd (List.getLast?_eq_none_iff.mp hcl) hne
    | some c =>
      have hcw : c.isWhitespace = false :=
        trimL_getLast_not_ws raw c (by rw [← hlast]; exact hcl)
      intro hnil
      have hall := (trimL_eq_nil_iff cap).mp hnil
      have := hall c (getLast?_mem' cap c hcl)
      rw [hcw] at this
      exact Bool.false_ne_true this

/-- The pending-metadata invariant: the parser state never carries an empty
display name (the defaults and every regex capture are non-empty). -/
def stOK (st : Option M3UMeta) : Prop := ∀ m, st = some m → m.name ≠ []

theorem m3uStep_stOK (st : Option M3UMeta) (raw : Str) (h : stOK st) :
    stOK (m3uStep st raw).1 := by
  cases st with
  | none =>
    unfold m3uStep
    dsimp only
    split
    · intro m hm
      obtain rfl : mkMeta (trimL raw) = m := by simpa using hm
      exact mkMeta_name_ne raw
    · split
      · intro m hm; simp at hm
      · intro m hm; simp at hm
  | some m0 =>
    unfold m3uStep
    dsimp only
    split
    · intro m hm
      obtain rfl : mkMeta (trimL raw) = m := by simpa using hm
      exact mkMeta_name_ne raw
    · split
      · exact h
      · exact h

theorem m3uStep_emit (st : Option M3UMeta) (raw : Str) (h : stOK st) :
    ∀ ch ∈ (m3uStep st raw).2, ch.name ≠ [] ∧ ch.url ≠ [] := by
  cases st with
  | none =>
    unfold m3uStep
    dsimp only
    split
    · simp
    · split
      · simp
      · simp
  | some m =>
    unfold m3uStep
    dsimp only
    split
    · simp
    · split
      · split
        next h3 =>
          intro ch hch
          rw [List.mem_singleton] at hch
          subst hch
          exact h3
        · simp
      · simp

theorem parseLines_cons (st : Option M3UMeta) (l : Str) (ls : List Str) :
    parseLines st (l :: ls) = (m3uStep st l).2 ++ parseLines (m3uStep st l).1 ls := rfl

theorem m3uState_cons (st : Option M3UMeta) (l : Str) (ls : List Str) :
    m3uState st (l :: ls) = m3uState (m3uStep st l).1 ls := rfl

theorem parseLines_names : ∀ (ls : List Str) (st : Option M3UMeta), stOK st →
    ∀ ch ∈ parseLines st ls, ch.name ≠ [] ∧ ch.url ≠ [] := by
  intro ls
  induction ls with
  | nil => intro st _ ch hch; simp [parseLines] at hch
  | cons l rest ih =>
    intro st hst ch hch
    rw [parseLines_cons] at hch
    rcases List.mem_append.mp hch with h1 | h2
    · exact m3uStep_emit st l hst ch h1
    · exact ih (m3uStep st l).1 (m3uStep_stOK st l hst) ch h2

theorem m3uStep_no_emit (st : Option M3UMeta) (raw : Str)
    (h : streamLine (trimL raw) = false) : (m3uStep st raw).2 = [] := by
  cases st with
  | none =>
    unfold m3uStep
    dsimp only
    split
    · rfl
    · split
      · rfl
      · rfl
  | some m =>
    unfold m3uStep
    dsimp only
    split
    · rfl
    · split
      next h2 => rw [h] at h2; exact absurd h2 (by simp)
      · rfl

theorem parseLines_no_stream : ∀ (ls : List Str) (st : Option M3UMeta),
    (∀ l ∈ ls, streamLine (trimL l) = false) → parseLines st ls = [] := by
  intro ls
  induction ls with
  | nil => intro st _; rfl
  | cons l rest ih =>
    intro st hall
    rw [parseLines_cons, m3uStep_no_emit st l (hall l (List.mem_cons_self l rest))]
    rw [List.nil_append]
    exact ih _ (fun x hx => hall x (List.mem_cons_of_mem l hx))

theorem extinf_not_stream (line : Str)
    (h : "#EXTINF:".toList.isPrefixOf line = true) : streamLine line = false := by
  obtain ⟨t, rfl⟩ := (isPrefixOf_eq_true_iff _ _).mp h
  have h1 : ['#'].isPrefixOf ("#EXTINF:".toList ++ t) = true :=
    (isPrefixOf_eq_true_iff _ _).mpr
      ⟨"EXTINF:".toList ++ t, by rw [← List.append_assoc]; rfl⟩
  unfold streamLine
  rw [h1]
  simp

/-- C3: every channel emitted by `parseM3U` has a non-empty name and a
non-empty url, and a metadata line followed (before the next metadata
line) only by lines that are empty or comments after trimming contributes
no channel to the output. -/
theorem c3_nonempty_fields :
    (∀ (content : Str), ∀ ch ∈ parseM3U content, ch.name ≠ [] ∧ ch.url ≠ []) ∧
    (∀ (st : Option M3UMeta) (metaRaw : Str) (ls : List Str),
      "#EXTINF:".toList.isPrefixOf (trimL metaRaw) = true →
      (∀ l ∈ ls, streamLine (trimL l) = false) →
      parseLines st (metaRaw :: ls) = []) := by
  constructor
  · intro content ch hch
    exact parseLines_names _ none (fun m hm => by simp at hm) ch hch
  · intro st metaRaw ls hext hall
    rw [parseLines_cons, m3uStep_no_emit st metaRaw (extinf_not_stream _ hext),
      List.nil_append]
    exact parseLines_no_stream ls _ hall

/-- Closed instance of `c3_nonempty_fields`: the channel parsed from a
small playlist has non-empty name and url, and a metadata line followed
only by a comment and a blank line emits nothing. -/
theorem c3_nonempty_fields_witness :
    ((⟨none, "Uncategorized".toList, "News".toList, "http://u/s".toList, none⟩ :
        Channel).name ≠ [] ∧
      (⟨none, "Uncategorized".toList, "News".toList, "http://u/s".toList, none⟩ :
        Channel).url ≠ []) ∧
    parseLines none ["#EXTINF:-1,News".toList, "#comment".toList, "  ".toList] = [] := by
  constructor
  · exact c3_nonempty_fields.1 "#EXTINF:-1,News\nhttp://u/s".toList
      ⟨none, "Uncategorized".toList, "News".toList, "http://u/s".toList, none⟩
      (by decide)
  · exact c3_nonempty_fields.2 none "#EXTINF:-1,News".toList
      ["#comment".toList, "  ".toList] (by decide) (by decide)

theorem stream_not_extinf (line : Str) (h : streamLine line = true) :
    "#EXTINF:".toList.isPrefixOf line = false := by
  rcases he : "#EXTINF:".toList.isPrefixOf line with _ | _
  · rfl
  · rw [extinf_not_stream line he] at h
    exact absurd h (by simp)

theorem m3uStep_extinf (st : Option M3UMeta) (l : Str)
    (h : "#EXTINF:".toList.isPrefixOf (trimL l) = true) :
    m3uStep st l = (some (mkMeta (trimL l)), []) := by
  cases st with
  | none =>
    unfold m3uStep
    dsimp only
    rw [if_pos h]
  | some m =>
    unfold m3uStep
    dsimp only
    rw [if_pos h]

theorem m3uStep_none_skip (l : Str)
    (h : "#EXTINF:".toList.isPrefixOf (trimL l) = false) :
    m3uStep none l = (none, []) := by
  unfold m3uStep
  dsimp only
  rw [if_neg (by rw [h]; simp)]
  split
  · rfl
  · rfl

theorem m3uStep_some_stream (m : M3UMeta) (l : Str)
    (hs : streamLine (trimL l) = true) (hn : m.name ≠ []) :
    m3uStep (some m) l =
      (some m, [⟨m.logo, m.group, m.name, trimL l, none⟩]) := by
  have hline : trimL l ≠ [] := by
    intro hnil
    unfold streamLine at hs
    rw [hnil] at hs
    simp at hs
  unfold m3uStep
  dsimp only
  rw [if_neg (by rw [stream_not_extinf _ hs]; simp), if_pos hs, if_pos ⟨hn, hline⟩]

theorem parseLines_skip_none : ∀ (pre : List Str) (rest : List Str),
    (∀ l ∈ pre, "#EXTINF:".toList.isPrefixOf (trimL l) = false) →
    parseLines none (pre ++ rest) = parseLines none rest := by
  intro pre
  induction pre with
  | nil => intro rest _; rfl
  | cons l pre' ih =>
    intro rest hall
    rw [List.cons_append, parseLines_cons,
      m3uStep_none_skip l (hall l (List.mem_cons_self l pre'))]
    rw [List.nil_append]
    exact ih rest (fun x hx => hall x (List.mem_cons_of_mem l hx))

theorem parseLines_some_urls : ∀ (urls : List Str) (m : M3UMeta), m.name ≠ [] →
    (∀ l ∈ urls, streamLine (trimL l) = true) →
    parseLines (some m) urls =
      urls.map (fun l => ⟨m.logo, m.group, m.name, trimL l, none⟩) := by
  intro urls
  induction urls with
  | nil => intro m _ _; rfl
  | cons l urls' ih =>
    intro m hn hall
    rw [parseLines_cons, m3uStep_some_stream m l (hall l (List.mem_cons_self l urls')) hn]
    rw [List.map_cons, List.singleton_append]
    congr 1
    exact ih m hn (fun x hx => hall x (List.mem_cons_of_mem l hx))

/-- C10: the pending metadata is not cleared after a channel is pushed:
after lines holding no `#EXTINF:` prefix (which emit nothing even when
they are stream-URL lines, the pending record being absent), a metadata
line followed by any number of stream-URL lines emits one channel per URL
line, all sharing that metadata line's logo, group and name and differing
only in `url`. -/
theorem c10_metadata_reuse (pre : List Str) (metaRaw : Str) (urls : List Str)
    (hpre : ∀ l ∈ pre, "#EXTINF:".toList.isPrefixOf (trimL l) = false)
    (hmeta : "#EXTINF:".toList.isPrefixOf (trimL metaRaw) = true)
    (hurls : ∀ l ∈ urls, streamLine (trimL l) = true) :
    parseLines none (pre ++ metaRaw :: urls) =
      urls.map (fun l =>
        ⟨(mkMeta (trimL metaRaw)).logo, (mkMeta (trimL metaRaw)).group,
          (mkMeta (trimL metaRaw)).name, trimL l, none⟩) := by
  rw [parseLines_skip_none pre _ hpre, parseLines_cons, m3uStep_extinf none metaRaw hmeta]
  rw [List.nil_append]
  exact parseLines_some_urls urls _ (mkMeta_name_ne metaRaw) hurls

/-- Closed instance of `c10_metadata_reuse`: a stream line before any
metadata emits nothing, and one metadata line followed by two URL lines
yields two channels sharing name/group/logo and differing only in url. -/
theorem c10_metadata_reuse_witness :
    parseLines none
        ["http://early/ignored".toList, "#EXTINF:-1 group-title=\"G\",N".toList,
          "http://u/1".toList, "http://u/2".toList] =
      [⟨none, "G".toList, "N".toList, "http://u/1".toList, none⟩,
        ⟨none, "G".toList, "N".toList, "http://u/2".toList, none⟩] := by
  have h := c10_metadata_reuse ["http://early/ignored".toList]
    "#EXTINF:-1 group-title=\"G\",N".toList
    ["http://u/1".toList, "http://u/2".toList]
    (by decide) (by decide) (by decide)
  rw [List.singleton_append] at h
  rw [h]
  decide

theorem isPrefixOf_append_right (p l z : Str) (h : p.isPrefixOf l = true) :
    p.isPrefixOf (l ++ z) = true := by
  obtain ⟨t, rfl⟩ := (isPrefixOf_eq_true_iff _ _).mp h
  exact (isPrefixOf_eq_true_iff _ _).mpr ⟨t ++ z, by rw [List.append_assoc]⟩

theorem isPrefixOf_length_le (p l : Str) (h : p.isPrefixOf l = true) :
    p.length ≤ l.length := by
  obtain ⟨t, rfl⟩ := (isPrefixOf_eq_true_iff _ _).mp h
  simp

theorem afterFirst_some_length : ∀ (l : Str) (pat rem : Str),
    afterFirst pat l = some rem → pat.length ≤ l.length := by
  intro l
  induction l with
  | nil =>
    intro pat rem h
    rw [afterFirst] at h
    by_cases hp : pat = []
    · simp [hp]
    · rw [if_neg hp] at h; simp at h
  | cons c rest ih =>
    intro pat rem h
    rw [afterFirst] at h
    by_cases hp : pat.isPrefixOf (c :: rest) = true
    · exact isPrefixOf_length_le _ _ hp
    · rw [if_neg hp] at h
      exact Nat.le_trans (ih pat rem h) (by simp)

theorem isPrefixOf_of_append (p l z : Str) (hlen : p.length ≤ l.length)
    (h : p.isPrefixOf (l ++ z) = true) : p.isPrefixOf l = true := by
  obtain ⟨t, ht⟩ := (isPrefixOf_eq_true_iff _ _).mp h
  refine (isPrefixOf_eq_true_iff _ _).mpr ⟨l.drop p.length, ?_⟩
  have htake : (l ++ z).take p.length = l.take p.length :=
    List.take_append_of_le_length hlen
  rw [ht, List.take_left] at htake
  conv_lhs => rw [← List.take_append_drop p.length l]
  rw [← htake]

theorem afterFirst_append : ∀ (l : Str) (pat rem z : Str),
    afterFirst pat l = some rem → afterFirst pat (l ++ z) = some (rem ++ z) := by
  intro l
  induction l with
  | nil =>
    intro pat rem z h
    rw [afterFirst] at h
    by_cases hp : pat = []
    · rw [if_pos hp] at h
      obtain rfl : ([] : Str) = rem := by simpa using h
      subst hp
      cases z with
      | nil => rfl
      | cons c rest =>
        rw [List.nil_append, afterFirst]
        rw [if_pos (by simp [List.isPrefixOf])]
        simp
    · rw [if_neg hp] at h; simp at h
  | cons c rest ih =>
    intro pat rem z h
    rw [afterFirst] at h
    rw [List.cons_append, afterFirst]
    by_cases hp : pat.isPrefixOf (c :: rest) = true
    · rw [if_pos hp] at h
      rw [if_pos (by rw [← List.cons_append]; exact isPrefixOf_append_right _ _ _ hp)]
      obtain rfl : (c :: rest).drop pat.length = rem := by simpa using h
      rw [← List.cons_append, List.drop_append_of_le_length (isPrefixOf_length_le _ _ hp)]
    · rw [if_neg hp] at h
      have hnp : ¬ pat.isPrefixOf (c :: rest ++ z) = true := by
        intro hyes
        have hlen : pat.length ≤ (c :: rest).length := by
          have := afterFirst_some_length rest pat rem h
          calc pat.length ≤ rest.length := this
            _ ≤ (c :: rest).length := by simp
        exact hp (isPrefixOf_of_append _ _ _ hlen (by rw [List.cons_append]; exact hyes))
      rw [if_neg (by rw [← List.cons_append]; exact hnp)]
      exact ih pat rem z h

theorem takeWhile_length_lt_of_mem (p : α → Bool) :
    ∀ (l : List α) (c : α), c ∈ l → p c = false →
      (l.takeWhile p).length < l.length := by
  intro l
  induction l with
  | nil => intro c hc; simp at hc
  | cons x xs ih =>
    intro c hc hpc
    rw [List.takeWhile_cons]
    cases hpx : p x with
    | false => simp
    | true =>
      rcases List.mem_cons.mp hc with rfl | hcx
      · rw [hpx] at hpc; exact absurd hpc (by simp)
      · simp only [if_true]
        have := ih c hcx hpc
        simpa using Nat.succ_lt_succ this

theorem takeUntilQuote_append (rem z : Str) (h : '"' ∈ rem) :
    takeUntilQuote (rem ++ z) = some (rem.takeWhile (fun c => c ≠ '"')) := by
  unfold takeUntilQuote
  rw [if_pos ?hany]
  case hany =>
    rw [List.any_append, Bool.or_eq_true]
    exact Or.inl (List.any_eq_true.mpr ⟨'"', h, by simp⟩)
  congr 1
  rw [List.takeWhile_append]
  rw [if_neg ?hlen]
  case hlen =>
    have : ((rem.takeWhile (fun c => c ≠ '"')).length < rem.length) :=
      takeWhile_length_lt_of_mem _ rem '"' h (by simp)
    omega

theorem nameCapture_before_comma : ∀ (init z : Str),
    (∀ c ∈ init, c ≠ ',') → z ≠ [] → z.all dotChar = true →
    nameCapture (init ++ ',' :: z) = some z := by
  intro init
  induction init with
  | nil =>
    intro z hz1 hz2 hz3
    rw [List.nil_append, nameCapture, if_pos ⟨rfl, hz2, hz3⟩]
  | cons c rest ih =>
    intro z hz1 hz2 hz3
    rw [List.cons_append, nameCapture]
    rw [if_neg (by
      rintro ⟨hc, -⟩
      exact hz1 c (List.mem_cons_self c rest) hc)]
    exact ih z (fun x hx => hz1 x (List.mem_cons_of_mem c hx)) hz2 hz3

theorem trimL_eq_self (l : Str) (c c' : Char) (hh : l.head? = some c)
    (hcw : c.isWhitespace = false) (hl : l.getLast? = some c')
    (hcw' : c'.isWhitespace = false) : trimL l = l := by
  have hF : trimF l = l := by
    cases l with
    | nil => simp at hh
    | cons x xs =>
      obtain rfl : x = c := by simpa using hh
      unfold trimF
      rw [List.dropWhile_cons, if_neg (by rw [hcw]; simp)]
  have hR : trimR l = l := by
    unfold trimR
    cases hrev : l.reverse with
    | nil =>
      rw [List.reverse_eq_nil_iff] at hrev
      subst hrev
      rfl
    | cons y ys =>
      have hy : y = c' := by
        have hhr := List.head?_reverse l
        rw [hrev, hl] at hhr
        simpa using hhr
      have hdw : List.dropWhile Char.isWhitespace (y :: ys) = y :: ys := by
        rw [List.dropWhile_cons, if_neg (by rw [hy, hcw']; simp)]
      rw [hdw, ← hrev, List.reverse_reverse]
  unfold trimL
  rw [hF, hR]

/-- Fixture: a metadata line with logo and group attributes up to (and
including) its first comma; the display-name text is appended after it. -/
def tmplPre : Str := "#EXTINF:-1 tvg-logo=\"http://logo/x.png\" group-title=\"News\",".toList

/-- Fixture: `tmplPre` without its trailing comma. -/
def tmplInit : Str := "#EXTINF:-1 tvg-logo=\"http://logo/x.png\" group-title=\"News\"".toList

/-- Fixture: remainder of `tmplPre` after `tvg-logo="`. -/
def remLogo : Str := "http://logo/x.png\" group-title=\"News\",".toList

/-- Fixture: remainder of `tmplPre` after `group-title="`. -/
def remGroup : Str := "News\",".toList

/-- C7 (amended): the display name is the free text following the FIRST
comma of the metadata line, trimmed (the regex `/,(.+)$/` matches at the
leftmost comma), not the last comma; the attribute captures and, for a
line with no attribute and no comma capture, the defaults
`logo=null, group="Uncategorized", name="Unknown Channel"`, are as the
claim states them.  Stated for metadata lines
`#EXTINF:-1 tvg-logo="http://logo/x.png" group-title="News",Z` with `Z`
non-empty, free of line terminators, and already trimmed. -/
theorem c7_first_comma_name (Z : Str) (hzne : Z ≠ [])
    (hzdot : Z.all dotChar = true) (hztr : trimL Z = Z) :
    parseLines none [tmplPre ++ Z, "http://stream/1".toList] =
      [⟨some "http://logo/x.png".toList, "News".toList, Z,
        "http://stream/1".toList, none⟩] ∧
    parseLines none ["#EXTINF:-1".toList, "http://stream/1".toList] =
      [⟨none, "Uncategorized".toList, "Unknown Channel".toList,
        "http://stream/1".toList, none⟩] := by
  refine ⟨?_, by decide⟩
  obtain ⟨zc, hzc⟩ : ∃ c, Z.getLast? = some c := by
    cases hg : Z.getLast? with
    | none => exact absurd (List.getLast?_eq_none_iff.mp hg) hzne
    | some c => exact ⟨c, rfl⟩
  have hzcw : zc.isWhitespace = false :=
    trimL_getLast_not_ws Z zc (by rw [hztr]; exact hzc)
  have h1 : afterFirst "tvg-logo=\"".toList tmplPre = some remLogo := by decide
  have h2 := afterFirst_append tmplPre "tvg-logo=\"".toList remLogo Z h1
  have h3 : takeUntilQuote (remLogo ++ Z) =
      some (remLogo.takeWhile (fun c => c ≠ '"')) :=
    takeUntilQuote_append remLogo Z (by decide)
  have g1 : afterFirst "group-title=\"".toList tmplPre = some remGroup := by decide
  have g2 := afterFirst_append tmplPre "group-title=\"".toList remGroup Z g1
  have g3 : takeUntilQuote (remGroup ++ Z) =
      some (remGroup.takeWhile (fun c => c ≠ '"')) :=
    takeUntilQuote_append remGroup Z (by decide)
  have n1 : tmplPre = tmplInit ++ [','] := by decide
  have n2 : nameCapture (tmplPre ++ Z) = some Z := by
    rw [n1, List.append_assoc]
    exact nameCapture_before_comma tmplInit Z (by decide) hzne hzdot
  have hmeta : mkMeta (tmplPre ++ Z) =
      ⟨some "http://logo/x.png".toList, "News".toList, Z⟩ := by
    unfold mkMeta attrCapture
    rw [h2, g2, n2]
    simp only [Option.some_bind, h3, g3, Option.map_some', Option.getD_some]
    rw [hztr]
    have e1 : remLogo.takeWhile (fun c => c ≠ '"') = "http://logo/x.png".toList := by
      decide
    have e2 : remGroup.takeWhile (fun c => c ≠ '"') = "News".toList := by decide
    rw [e1, e2]
  have hcons : tmplPre ++ Z =
      '#' :: ("EXTINF:-1 tvg-logo=\"http://logo/x.png\" group-title=\"News\",".toList ++ Z) := by
    rw [show tmplPre =
      '#' :: "EXTINF:-1 tvg-logo=\"http://logo/x.png\" group-title=\"News\",".toList
      from by decide, List.cons_append]
  have hline : trimL (tmplPre ++ Z) = tmplPre ++ Z := by
    apply trimL_eq_self _ '#' zc
    · rw [hcons]; rfl
    · decide
    · rw [List.getLast?_append, hzc]; rfl
    · exact hzcw
  have hext : "#EXTINF:".toList.isPrefixOf (trimL (tmplPre ++ Z)) = true := by
    rw [hline]
    exact isPrefixOf_append_right _ _ _ (by decide)
  rw [parseLines_cons, m3uStep_extinf none (tmplPre ++ Z) hext]
  dsimp only
  rw [hline, hmeta, List.nil_append]
  rw [parseLines_some_urls ["http://stream/1".toList]
    ⟨some "http://logo/x.png".toList, "News".toList, Z⟩ hzne (by decide)]
  rw [List.map_cons, List.map_nil]
  rw [show trimL "http://stream/1".toList = "http://stream/1".toList from by decide]

/-- Closed instance of `c7_first_comma_name`: a display name holding a
comma is captured whole from the first comma on. -/
theorem c7_first_comma_name_witness :
    parseLines none [tmplPre ++ "Some Movie, Part 2".toList,
        "http://stream/1".toList] =
      [⟨some "http://logo/x.png".toList, "News".toList,
        "Some Movie, Part 2".toList, "http://stream/1".toList, none⟩] :=
  (c7_first_comma_name "Some Movie, Part 2".toList (by decide) (by decide)
    (by decide)).1

/-- C7 counterexample: on the metadata line
`#EXTINF:-1 tvg-logo="L" group-title="G",A,B` the free text following the
LAST comma is `B`, but the emitted record's name is `A,B` (the capture
starts at the first comma), refuting the claim as stated. -/
theorem c7_last_comma_counterexample :
    parseM3U "#EXTINF:-1 tvg-logo=\"L\" group-title=\"G\",A,B\nhttp://u".toList =
      [⟨some "L".toList, "G".toList, "A,B".toList, "http://u".toList, none⟩] ∧
    ("A,B".toList : Str) ≠ "B".toList := by
  constructor
  · decide
  · decide

/-! ### EPG index lemmas -/

theorem find?_map_keyInv (f : Str × List Program → Str × List Program)
    (hf : ∀ kv, (f kv).1 = kv.1) (c : Str) :
    ∀ (idx : EPGIndex),
      (idx.map f).find? (fun kv => kv.1 == c) =
        (idx.find? (fun kv => kv.1 == c)).map f := by
  intro idx
  induction idx with
  | nil => rfl
  | cons kv rest ih =>
    rw [List.map_cons]
    cases hkc : (kv.1 == c) with
    | true =>
      rw [List.find?_cons_of_pos _ (by show ((f kv).1 == c) = true; rw [hf kv]; exact hkc),
        List.find?_cons_of_pos _ (by show (kv.1 == c) = true; exact hkc)]
      rfl
    | false =>
      rw [List.find?_cons_of_neg _ (by show ¬((f kv).1 == c) = true; rw [hf kv, hkc]; simp),
        List.find?_cons_of_neg _ (by show ¬(kv.1 == c) = true; rw [hkc]; simp)]
      exact ih

theorem lookupIdx_addProg (idx : EPGIndex) (k : Str) (p : Program) (c : Str) :
    lookupIdx (addProg idx k p) c =
      if c = k then some ((lookupIdx idx k).getD [] ++ [p])
      else lookupIdx idx c := by
  unfold addProg
  by_cases hk : (lookupIdx idx k).isSome
  · rw [if_pos hk]
    unfold lookupIdx
    rw [find?_map_keyInv _ (fun kv => by
      show (if kv.1 == k then (kv.1, kv.2 ++ [p]) else kv).1 = kv.1
      split <;> rfl) c idx]
    by_cases hck : c = k
    · subst hck
      rw [if_pos rfl]
      obtain ⟨ps, hps⟩ := Option.isSome_iff_exists.mp hk
      unfold lookupIdx at hps
      cases hfd : idx.find? (fun kv => kv.1 == c) with
      | none => rw [hfd] at hps; simp at hps
      | some kv0 =>
        rw [hfd] at hps
        have hkey := List.find?_some hfd
        simp only [beq_iff_eq] at hkey
        simp only [Option.map_some'] at hps ⊢
        have hbeq : (kv0.1 == c) = true := beq_iff_eq.mpr hkey
        rw [show (if kv0.1 == c then (kv0.1, kv0.2 ++ [p]) else kv0) = (kv0.1, kv0.2 ++ [p])
          from by rw [if_pos hbeq]]
        simp only [Option.getD_some] at hps ⊢
    · rw [if_neg hck]
      cases hfd : idx.find? (fun kv => kv.1 == c) with
      | none => rfl
      | some kv0 =>
        have hkey := List.find?_some hfd
        simp only [beq_iff_eq] at hkey
        have hkne : (kv0.1 == k) = false := by
          rw [hkey]
          exact beq_eq_false_iff_ne.mpr (fun hc => hck hc)
        simp only [Option.map_some']
        rw [show (if kv0.1 == k then (kv0.1, kv0.2 ++ [p]) else kv0) = kv0
          from by rw [hkne]; rfl]
  · rw [if_neg hk]
    unfold lookupIdx
    rw [List.find?_append]
    by_cases hck : c = k
    · subst hck
      have hfn : idx.find? (fun kv => kv.1 == c) = none := by
        cases hfd : idx.find? (fun kv => kv.1 == c) with
        | none => rfl
        | some kv0 =>
          exfalso
          apply hk
          unfold lookupIdx
          rw [hfd]
          rfl
      rw [if_pos rfl, hfn]
      rw [List.find?_cons_of_pos _ (by show ((c, [p]).1 == c) = true; simp)]
      rfl
    · rw [if_neg hck]
      have hone : List.find? (fun kv => kv.1 == c) [(k, [p])] = none := by
        rw [List.find?_cons_of_neg _ (by
          show ¬(((k, [p]) : Str × List Program).1 == c) = true
          simp
          exact fun hc => hck hc.symm)]
        rfl
      rw [hone, Option.or_none]

/-- The programs the `parseEPG` loop stores under channel-id `c`: one per
element passing the presence/parsability guards whose channel attribute is
`c`, in document order. -/
def progsFor (c : Str) (elems : List ProgElem) : List Program :=
  (elems.filter (fun e => progValid e && (e.channel.getD [] == c))).map mkProg

theorem buildFold_lookup : ∀ (elems : List ProgElem) (idx : EPGIndex) (c : Str),
    lookupIdx (elems.foldl buildStep idx) c =
      match lookupIdx idx c with
      | some l => some (l ++ progsFor c elems)
      | none => if progsFor c elems = [] then none else some (progsFor c elems) := by
  intro elems
  induction elems with
  | nil =>
    intro idx c
    rw [List.foldl_nil]
    cases hlc : lookupIdx idx c with
    | none => simp [progsFor]
    | some l => simp [progsFor]
  | cons e rest ih =>
    intro idx c
    rw [List.foldl_cons]
    by_cases hv : progValid e = true
    · have hstep : buildStep idx e = addProg idx (e.channel.getD []) (mkProg e) := by
        unfold buildStep
        rw [if_pos hv]
      rw [hstep, ih (addProg idx (e.channel.getD []) (mkProg e)) c]
      rw [lookupIdx_addProg]
      by_cases hck : c = e.channel.getD []
      · rw [if_pos hck]
        have hfc : progsFor c (e :: rest) = mkProg e :: progsFor c rest := by
          unfold progsFor
          rw [List.filter_cons, if_pos (by
            rw [Bool.and_eq_true]
            exact ⟨hv, beq_iff_eq.mpr hck.symm⟩)]
          rw [List.map_cons]
        rw [hfc]
        cases hlc : lookupIdx idx c with
        | none =>
          rw [hck] at hlc
          rw [hlc]
          simp
        | some l =>
          rw [hck] at hlc
          rw [hlc]
          simp
      · rw [if_neg hck]
        have hfc : progsFor c (e :: rest) = progsFor c rest := by
          unfold progsFor
          rw [List.filter_cons, if_neg (by
            rw [Bool.and_eq_true]
            rintro ⟨-, hbeq⟩
            exact hck (beq_iff_eq.mp hbeq).symm)]
        rw [hfc]
    · have hstep : buildStep idx e = idx := by
        unfold buildStep
        rw [if_neg hv]
      rw [hstep, ih idx c]
      have hfc : progsFor c (e :: rest) = progsFor c rest := by
        unfold progsFor
        rw [List.filter_cons, if_neg (by
          rw [Bool.and_eq_true]
          rintro ⟨hv2, -⟩
          exact hv hv2)]
      rw [hfc]

/-- C4 (amended): `parseEPG` drops a programme element exactly when its
channel/start/stop attributes are missing or empty, or a timestamp is too
short to parse (the `parseDate` null cases); it performs NO `stop > start`
comparison, so the per-channel list holds every guard-passing entry in
document order, including entries whose stop is not after their start. -/
theorem c4_no_stop_start_filter (elems : List ProgElem) (c : Str) :
    lookupIdx (buildIndex elems) c =
      if progsFor c elems = [] then none else some (progsFor c elems) := by
  unfold buildIndex
  rw [buildFold_lookup elems [] c]
  rfl

/-- C4 counterexample: a programme whose stop equals its start (so `stop >
start` fails) is stored anyway and appears in the per-channel list,
refuting "entries violating `stop > start` are dropped". -/
theorem c4_equal_bounds_stored :
    lookupIdx
        (parseEPG []
          (.run [⟨some "c".toList, some "20200101120000".toList,
            some "20200101120000".toList, some "T".toList, none⟩] false))
        "c".toList =
      some [⟨some 26298000, some 26298000, "T".toList, []⟩] ∧
    (⟨some 26298000, some 26298000, "T".toList, []⟩ : Program).stop =
      (⟨some 26298000, some 26298000, "T".toList, []⟩ : Program).start := by
  constructor
  · decide
  · rfl

/-- C5 (amended): only a structural failure raised in the
document-parsing phase, before the `appState.epgData = {}` reset, leaves
the prior index in place; once the programme elements are obtained the
index is rebuilt from scratch, so an exception thrown later inside the
`try` (after the reset) leaves the freshly rebuilt index — in particular a
failed parse of a document with no programme elements leaves the index
empty even though the prior index was non-empty. -/
theorem c5_reset_before_fill :
    (∀ (prior : EPGIndex), parseEPG prior .earlyThrow = prior) ∧
    (∀ (prior : EPGIndex) (elems : List ProgElem) (laterThrow : Bool),
      parseEPG prior (.run elems laterThrow) = buildIndex elems) := by
  exact ⟨fun _ => rfl, fun _ _ _ => rfl⟩

/-- C5 counterexample: with a non-empty prior index, a parse run that
obtains zero programme elements and then throws (the exception being
caught and logged) leaves the index empty: the prior contents are NOT
retained, refuting the claim as stated. -/
theorem c5_failed_parse_clears :
    parseEPG [("c".toList, [⟨some 0, some 1, [], []⟩])] (.run [] true) = [] ∧
    ([("c".toList, [⟨some 0, some 1, [], []⟩])] : EPGIndex) ≠ [] := by
  constructor
  · rfl
  · simp

/-! ### View classifier theorems -/

theorem getView_movies (chans : List Channel) :
    getChannelsForView "movies".toList chans =
      if chans = [] then [] else chans.filter isMovieCh := by
  unfold getChannelsForView
  by_cases h : chans = []
  · simp only [if_pos h]
  · simp only [if_neg h]
    congr 1

theorem getView_live (chans : List Channel) :
    getChannelsForView "live-tv".toList chans =
      if chans = [] then []
      else chans.filter (fun ch => !isMovieCh ch && !isSeriesCh ch) := by
  unfold getChannelsForView
  by_cases h : chans = []
  · simp only [if_pos h]
  · simp only [if_neg h]
    congr 1

/-- C6 (amended): a channel is in the movies view iff its lower-cased
group contains one of `movie`, `film`, `vod`, `cinema` OR its lower-cased
name contains one of `movie`, `vod` (the code does not test names for
`film` or `cinema`); a channel that is neither movie nor series by the
code's predicates is in the live-tv view. -/
theorem c6_movies_view (chans : List Channel) (ch : Channel) :
    (ch ∈ getChannelsForView "movies".toList chans ↔
      ch ∈ chans ∧
        (hasSubstr "movie".toList (lowerS ch.group) = true ∨
          hasSubstr "film".toList (lowerS ch.group) = true ∨
          hasSubstr "vod".toList (lowerS ch.group) = true ∨
          hasSubstr "cinema".toList (lowerS ch.group) = true ∨
          hasSubstr "movie".toList (lowerS ch.name) = true ∨
          hasSubstr "vod".toList (lowerS ch.name) = true)) ∧
    (isMovieCh ch = false → isSeriesCh ch = false →
      (ch ∈ getChannelsForView "live-tv".toList chans ↔ ch ∈ chans)) := by
  have hiff : isMovieCh ch = true ↔
      (hasSubstr "movie".toList (lowerS ch.group) = true ∨
        hasSubstr "film".toList (lowerS ch.group) = true ∨
        hasSubstr "vod".toList (lowerS ch.group) = true ∨
        hasSubstr "cinema".toList (lowerS ch.group) = true ∨
        hasSubstr "movie".toList (lowerS ch.name) = true ∨
        hasSubstr "vod".toList (lowerS ch.name) = true) := by
    unfold isMovieCh
    simp only [Bool.or_eq_true, or_assoc]
  constructor
  · rw [getView_movies]
    by_cases h : chans = []
    · subst h
      rw [if_pos rfl]
      simp
    · rw [if_neg h, List.mem_filter]
      exact and_congr_right (fun _ => hiff)
  · intro hm hs
    rw [getView_live]
    by_cases h : chans = []
    · subst h
      rw [if_pos rfl]
    · rw [if_neg h, List.mem_filter]
      simp [hm, hs]

/-- Closed instance of `c6_movies_view`: a channel with group `Movies HD`
is in the movies view; a channel with no movie/series markers is in the
live-tv view. -/
theorem c6_movies_view_witness :
    (⟨none, "Movies HD".toList, "C1".toList, "http://u".toList, none⟩ : Channel) ∈
      getChannelsForView "movies".toList
        [⟨none, "Movies HD".toList, "C1".toList, "http://u".toList, none⟩] ∧
    (⟨none, "News".toList, "C2".toList, "http://u".toList, none⟩ : Channel) ∈
      getChannelsForView "live-tv".toList
        [⟨none, "News".toList, "C2".toList, "http://u".toList, none⟩] := by
  constructor
  · exact ((c6_movies_view
      [⟨none, "Movies HD".toList, "C1".toList, "http://u".toList, none⟩]
      ⟨none, "Movies HD".toList, "C1".toList, "http://u".toList, none⟩).1).mpr
      ⟨by simp, Or.inl (by decide)⟩
  · exact ((c6_movies_view
      [⟨none, "News".toList, "C2".toList, "http://u".toList, none⟩]
      ⟨none, "News".toList, "C2".toList, "http://u".toList, none⟩).2
      (by decide) (by decide)).mpr (by simp)

/-- C6 counterexample: the spec's movie predicate (name tested for all
four markers) holds for a channel named `Cinema One`, yet the code leaves
it out of the movies view (it lands in live-tv): name markers `film` and
`cinema` are not tested by the code. -/
theorem c6_cinema_name_counterexample :
    specIsMovie ⟨none, "General".toList, "Cinema One".toList,
        "http://u".toList, none⟩ = true ∧
    getChannelsForView "movies".toList
        [⟨none, "General".toList, "Cinema One".toList, "http://u".toList, none⟩]
      = [] ∧
    getChannelsForView "live-tv".toList
        [⟨none, "General".toList, "Cinema One".toList, "http://u".toList, none⟩]
      = [⟨none, "General".toList, "Cinema One".toList, "http://u".toList, none⟩] := by
  refine ⟨by decide, by decide, by decide⟩

/-! ### Correlator and current-program theorems -/

/-- C8: the correlator attaches a program list by (1) exact key lookup of
the channel's name, then (2) the first index key equal up to lower-casing,
in index (insertion) order; a channel matching under neither policy is
mapped to itself, its `epg` field untouched (absent), and a match under
either policy is attached verbatim — no other matching exists. -/
theorem c8_correlation_policy (idx : EPGIndex) (nm : Str) :
    (∀ ps, lookupIdx idx nm = some ps → epgForName idx nm = some ps) ∧
    (lookupIdx idx nm = none →
      ((epgForName idx nm = none ↔ ∀ kv ∈ idx, lowerS kv.1 ≠ lowerS nm) ∧
        (∀ ps, epgForName idx nm = some ps →
          ∃ i : Nat, ∃ hi : i < idx.length,
            (idx.get ⟨i, hi⟩).2 = ps ∧ lowerS (idx.get ⟨i, hi⟩).1 = lowerS nm ∧
            ∀ j, ∀ hj : j < idx.length, j < i →
              lowerS (idx.get ⟨j, hj⟩).1 ≠ lowerS nm))) ∧
    (∀ ch : Channel, epgForName idx ch.name = none →
      mapEPGToChannels idx [ch] = [ch]) ∧
    (∀ ch : Channel, ∀ ps, epgForName idx ch.name = some ps →
      mapEPGToChannels idx [ch] = [{ ch with epg := some ps }]) := by
  refine ⟨?_, ?_, ?_, ?_⟩
  · intro ps h
    unfold epgForName
    rw [h]
  · intro hnone
    constructor
    · unfold epgForName
      rw [hnone]
      rw [Option.map_eq_none']
      rw [List.find?_eq_none]
      constructor
      · intro h kv hkv
        have := h kv hkv
        rw [Bool.not_eq_true, beq_eq_false_iff_ne] at this
        exact this
      · intro h kv hkv
        rw [Bool.not_eq_true, beq_eq_false_iff_ne]
        exact h kv hkv
    · intro ps hps
      unfold epgForName at hps
      rw [hnone] at hps
      rw [Option.map_eq_some'] at hps
      obtain ⟨kv0, hfd, hsnd⟩ := hps
      rw [List.find?_eq_some_iff_getElem] at hfd
      obtain ⟨hpred, i, hi, hgi, hprev⟩ := hfd
      refine ⟨i, hi, ?_, ?_, ?_⟩
      · rw [List.get_eq_getElem, hgi]
        exact hsnd
      · rw [List.get_eq_getElem, hgi]
        exact beq_iff_eq.mp hpred
      · intro j hj hji
        have := hprev j hji
        rw [Bool.not_eq_true'] at this
        rw [List.get_eq_getElem]
        exact beq_eq_false_iff_ne.mp (by
          have hb : (lowerS (idx[j].1) == lowerS nm) = false := by simpa using this
          exact hb)
  · intro ch h
    unfold mapEPGToChannels
    rw [List.map_singleton, h]
  · intro ch ps h
    unfold mapEPGToChannels
    rw [List.map_singleton, h]

/-- Closed instance of `c8_correlation_policy`: an exact key wins; with no
exact key the first case-insensitive key wins; with neither the channel is
left untouched. -/
theorem c8_correlation_policy_witness :
    epgForName [("TVP1".toList, [⟨some 0, some 1, [], []⟩])] "TVP1".toList =
      some [⟨some 0, some 1, [], []⟩] ∧
    mapEPGToChannels [("TVP1".toList, [⟨some 0, some 1, [], []⟩])]
        [⟨none, "G".toList, "Nope".toList, "http://u".toList, none⟩] =
      [⟨none, "G".toList, "Nope".toList, "http://u".toList, none⟩] := by
  constructor
  · exact (c8_correlation_policy [("TVP1".toList, [⟨some 0, some 1, [], []⟩])]
      "TVP1".toList).1 [⟨some 0, some 1, [], []⟩] (by decide)
  · exact (c8_correlation_policy [("TVP1".toList, [⟨some 0, some 1, [], []⟩])]
      "Nope".toList).2.2.1
      ⟨none, "G".toList, "Nope".toList, "http://u".toList, none⟩ (by decide)

/-- C9: `getCurrentProgram` returns the first program of the attached list
whose half-open interval contains `now` (`start <= now < stop`), `none`
when no interval contains it; at an instant equal to a program's stop that
program is not current (it cannot be the returned one). -/
theorem c9_current_program (ch : Channel) (l : List Program) (now : Int)
    (hepg : ch.epg = some l) :
    (∀ p, getCurrentProgram ch now = some p →
      (progPred now p = true ∧
        ∃ i : Nat, ∃ hi : i < l.length, l.get ⟨i, hi⟩ = p ∧
          ∀ j, ∀ hj : j < l.length, j < i →
            progPred now (l.get ⟨j, hj⟩) = false)) ∧
    (getCurrentProgram ch now = none ↔ ∀ p ∈ l, progPred now p = false) ∧
    (∀ p : Program, progPred now p = true ↔
      ((∃ s, p.start = some s ∧ s ≤ now) ∧ (∃ e, p.stop = some e ∧ now < e))) ∧
    (∀ p, getCurrentProgram ch now = some p → p.stop ≠ some now) := by
  have hget : getCurrentProgram ch now = l.find? (progPred now) := by
    unfold getCurrentProgram
    rw [hepg]
  have hpred : ∀ p : Program, progPred now p = true ↔
      ((∃ s, p.start = some s ∧ s ≤ now) ∧ (∃ e, p.stop = some e ∧ now < e)) := by
    intro p
    unfold progPred
    cases p.start with
    | none => simp
    | some s =>
      cases p.stop with
      | none => simp
      | some e => simp
  refine ⟨?_, ?_, hpred, ?_⟩
  · intro p hp
    rw [hget] at hp
    rw [List.find?_eq_some_iff_getElem] at hp
    obtain ⟨hpp, i, hi, hgi, hprev⟩ := hp
    refine ⟨hpp, i, hi, ?_, ?_⟩
    · rw [List.get_eq_getElem, hgi]
    · intro j hj hji
      have := hprev j hji
      rw [Bool.not_eq_true'] at this
      rw [List.get_eq_getElem]
      exact this
  · rw [hget, List.find?_eq_none]
    constructor
    · intro h p hp
      have := h p hp
      rw [Bool.not_eq_true] at this
      exact this
    · intro h p hp
      rw [Bool.not_eq_true]
      exact h p hp
  · intro p hp hstop
    rw [hget] at hp
    have hpp := List.find?_some hp
    rw [hpred p] at hpp
    obtain ⟨-, e, he, hlt⟩ := hpp
    rw [hstop] at he
    obtain rfl : now = e := by simpa using he
    exact absurd hlt (by simp)

/-- Closed instance of `c9_current_program`: at `now = 10` a program
stopping at 10 is no longer current and the one starting at 10 is. -/
theorem c9_current_program_witness :
    (getCurrentProgram
        ⟨none, "G".toList, "N".toList, "http://u".toList,
          some [⟨some 0, some 10, [], []⟩, ⟨some 10, some 20, [], []⟩]⟩ 10 = none ↔
      ∀ p ∈ [(⟨some 0, some 10, [], []⟩ : Program), ⟨some 10, some 20, [], []⟩],
        progPred 10 p = false) ∧
    (∀ p, getCurrentProgram
        ⟨none, "G".toList, "N".toList, "http://u".toList,
          some [⟨some 0, some 10, [], []⟩, ⟨some 10, some 20, [], []⟩]⟩ 10 = some p →
      p.stop ≠ some 10) := by
  constructor
  · exact (c9_current_program
      ⟨none, "G".toList, "N".toList, "http://u".toList,
        some [⟨some 0, some 10, [], []⟩, ⟨some 10, some 20, [], []⟩]⟩
      [⟨some 0, some 10, [], []⟩, ⟨some 10, some 20, [], []⟩] 10 rfl).2.1
  · exact (c9_current_program
      ⟨none, "G".toList, "N".toList, "http://u".toList,
        some [⟨some 0, some 10, [], []⟩, ⟨some 10, some 20, [], []⟩]⟩
      [⟨some 0, some 10, [], []⟩, ⟨some 10, some 20, [], []⟩] 10 rfl).2.2.2
